import Mathlib

/-!
Verification of the bittorrent-go client against its specification.

The Go sources are embedded shallowly:
* the bencode decoder (`decode`, `decodeString`, `decodeInt`, `decodeList`,
  `decodeDict`) becomes a pure function over a `List Char` and a start
  offset, with the mutually recursive part driven by a fuel parameter that
  strictly exceeds the maximum call depth (two units per input character);
* the bencode encoder of the third program variant (`encodeBencode`,
  `EncodeString`, `EncodeNumber`, `EncodeList`, `EncodeDictionary`) becomes
  a pure function; since Go map iteration order is unspecified,
  `EncodeDictionary` is parametrised by the iteration sequence of the map;
* network code (`executeHandshake`, the message exchange inside
  `downloadPieceFromPeer`) is modelled as a function of the peer's incoming
  byte stream, where each read takes the requested number of bytes off the
  stream and fails when the stream is exhausted;
* the retry / collection logic of `downloadTorrentParallel` becomes pure
  functions over the list of per-peer attempt outcomes and over the list of
  worker reports (in completion order).
Machine integers are modelled as `Nat`/`Int`; the sizes involved in the
claims stay far below any overflow boundary.
-/

namespace BittorrentGo

/-- Go strings are byte strings; the decoder works over their characters. -/
abbrev Str := List Char

/-- The decoded bencode value (`interface{}` in the Go source): integer,
byte string, list, or dictionary. The Go `map[string]interface{}` is
represented as an association list without duplicate keys, maintained by
`dictInsert` (Go's `m[key] = value`). -/
inductive Bencode where
  | int : Int → Bencode
  | str : Str → Bencode
  | list : List Bencode → Bencode
  | dict : List (Str × Bencode) → Bencode

/-- The error values the Go decoder returns (io.ErrUnexpectedEOF and the
fmt.Errorf messages of decode / decodeString / decodeInt / decodeList /
decodeDict). -/
inductive ParseErr where
  | eof
  | badString
  | badStringOOB
  | badInt
  | badList
  | badDict
  | unexpected (c : Char)
  deriving DecidableEq

/-- Go's `b[i] >= '0' && b[i] <= '9'`. -/
def isDigitChar (c : Char) : Bool := '0' ≤ c && c ≤ '9'

/-- Go's `int(b[i]) - '0'`. -/
def digitVal (c : Char) : Nat := c.toNat - '0'.toNat

/-- The digit-accumulation loop shared by decodeString and decodeInt,
walking the suffix of the input that starts at the current position:
`for i < len(b) && b[i] >= '0' && b[i] <= '9' { x = x*10 + (int(b[i]) - '0'); i++ }`.
The `i < len(b)` guard is the suffix being non-empty; `b[i]` is its head. -/
def readDigitsGo : Str → Nat → Nat → Nat × Nat
  | [], i, x => (x, i)
  | c :: rest, i, x =>
    if isDigitChar c then readDigitsGo rest (i + 1) (x * 10 + digitVal c)
    else (x, i)

/-- The digit loop entered at position `i` of `b` with accumulator `x`:
returns the accumulated value and the first position at or past `i` that
holds no digit. -/
def readDigits (b : Str) (i : Nat) (x : Nat) : Nat × Nat :=
  readDigitsGo (b.drop i) i x

/-- `decodeString` of the Go source: length digits, `:`, then exactly that
many bytes; fails when the `:` is missing or the declared length runs past
the end of the input. -/
def decodeString (b : Str) (st : Nat) : Except ParseErr (Str × Nat) :=
  let p := readDigits b st 0
  if p.2 = b.length then .error .badString
  else if b.getD p.2 ' ' ≠ ':' then .error .badString
  else if p.2 + 1 + p.1 > b.length then .error .badStringOOB
  else .ok ((b.drop (p.2 + 1)).take p.1, p.2 + 1 + p.1)

/-- The tail of Go's `decodeInt` after the digit loop, on the loop's result
`p = (x, i)`: `if i == len(b) || b[i] != 'e' { return error }`, then `i++`
and `if neg { x = -x }`. -/
def decodeIntTail (b : Str) (neg : Bool) (p : Nat × Nat) :
    Except ParseErr (Int × Nat) :=
  if p.2 = b.length then .error .badInt
  else if b.getD p.2 ' ' ≠ 'e' then .error .badInt
  else .ok (if neg then -(p.1 : Int) else (p.1 : Int), p.2 + 1)

/-- `decodeInt` of the Go source: skip the `i`, fail at end of input, read
an optional `-`, run the digit loop (possibly consuming nothing), then
require `e` and negate when the `-` was present. -/
def decodeInt (b : Str) (st : Nat) : Except ParseErr (Int × Nat) :=
  if st + 1 = b.length then .error .badInt
  else if b.getD (st + 1) ' ' = '-' then decodeIntTail b true (readDigits b (st + 2) 0)
  else decodeIntTail b false (readDigits b (st + 1) 0)

/-- Go's `m[key] = value` on `map[string]interface{}`: replace the binding
when the key is present, add it otherwise. -/
def dictInsert (m : List (Str × Bencode)) (k : Str) (v : Bencode) :
    List (Str × Bencode) :=
  match m with
  | [] => [(k, v)]
  | (k', v') :: rest =>
    if k' = k then (k, v) :: rest else (k', v') :: dictInsert rest k v

/-- Go's `m[key]` read on `map[string]interface{}`. -/
def dictLookup (m : List (Str × Bencode)) (k : Str) : Option Bencode :=
  match m with
  | [] => none
  | (k', v') :: rest => if k' = k then some v' else dictLookup rest k

mutual

/-- `decode` of the Go source: end-of-input check, then dispatch on the
leading byte in the source's order (`l`, `i`, digit, `d`, otherwise the
"unexpected value" error). `fuel` strictly exceeds the call depth whenever
it is at least `2 * b.length + 2 - st`. -/
def decodeD : Nat → Str → Nat → Except ParseErr (Bencode × Nat)
  | 0, _, _ => .error .eof
  | fuel + 1, b, st =>
    if st = b.length then .error .eof
    else if b.getD st ' ' = 'l' then
      match decodeListLoop fuel b (st + 1) with
      | .error e => .error e
      | .ok (l, i) => .ok (.list l, i)
    else if b.getD st ' ' = 'i' then
      match decodeInt b st with
      | .error e => .error e
      | .ok (x, i) => .ok (.int x, i)
    else if isDigitChar (b.getD st ' ') then
      match decodeString b st with
      | .error e => .error e
      | .ok (s, i) => .ok (.str s, i)
    else if b.getD st ' ' = 'd' then
      match decodeDictLoop fuel b (st + 1) [] with
      | .error e => .error e
      | .ok (m, i) => .ok (.dict m, i)
    else .error (.unexpected (b.getD st ' '))

/-- The loop of Go's `decodeList`, entered at the position just past the
`l`: stop with "bad list" at end of input, consume a terminating `e`
(returning the position just past it), otherwise decode one value and
continue. The element order matches the source's append order. -/
def decodeListLoop : Nat → Str → Nat → Except ParseErr (List Bencode × Nat)
  | 0, _, _ => .error .eof
  | fuel + 1, b, i =>
    if i ≥ b.length then .error .badList
    else if b.getD i ' ' = 'e' then .ok ([], i + 1)
    else
      match decodeD fuel b i with
      | .error e => .error e
      | .ok (x, i') =>
        match decodeListLoop fuel b i' with
        | .error e => .error e
        | .ok (l, j) => .ok (x :: l, j)

/-- The loop of Go's `decodeDict`, entered at the position just past the
`d`: stop with "bad dictionary" at end of input; on `e` the source `break`s
and returns WITHOUT advancing past the `e` (it has no `i++` after the loop,
unlike decodeList); otherwise decode a string key, a value, store the pair
with `m[key] = value`, and continue. -/
def decodeDictLoop : Nat → Str → Nat → List (Str × Bencode) →
    Except ParseErr (List (Str × Bencode) × Nat)
  | 0, _, _, _ => .error .eof
  | fuel + 1, b, i, m =>
    if i ≥ b.length then .error .badDict
    else if b.getD i ' ' = 'e' then .ok (m, i)
    else
      match decodeString b i with
      | .error e => .error e
      | .ok (k, j) =>
        match decodeD fuel b j with
        | .error e => .error e
        | .ok (v, j') => decodeDictLoop fuel b j' (dictInsert m k v)

end

/-- Fuel that strictly exceeds the decoder's maximum call depth on `b`. -/
def decodeFuel (b : Str) : Nat := 2 * b.length + 2

/-- Go's `decode(b, st)` as called by the program. -/
def decodeTop (b : Str) (st : Nat) : Except ParseErr (Bencode × Nat) :=
  decodeD (decodeFuel b) b st

/-- Specification-side companion of `decodeDictLoop`: the same parse, but
collecting the key/value pairs in parse order instead of folding them into
the map. Used to state what the dictionary parse does on duplicate keys. -/
def decodePairsLoop : Nat → Str → Nat → Except ParseErr (List (Str × Bencode) × Nat)
  | 0, _, _ => .error .eof
  | fuel + 1, b, i =>
    if i ≥ b.length then .error .badDict
    else if b.getD i ' ' = 'e' then .ok ([], i)
    else
      match decodeString b i with
      | .error e => .error e
      | .ok (k, j) =>
        match decodeD fuel b j with
        | .error e => .error e
        | .ok (v, j') =>
          match decodePairsLoop fuel b j' with
          | .error e => .error e
          | .ok (ps, j'') => .ok ((k, v) :: ps, j'')

/-- The value the digit loop accumulates over a digit run. -/
def digitsFold (x : Nat) (ds : Str) : Nat :=
  ds.foldl (fun a c => a * 10 + digitVal c) x

/-- The value of the last pair carrying key `k` in a parse-order pair list
(none when the key never occurs). Specification-side companion used to
state which binding survives duplicate keys. -/
def lastVal : List (Str × Bencode) → Str → Option Bencode
  | [], _ => none
  | q :: ps, k =>
    match lastVal ps k with
    | some v => some v
    | none => if q.1 = k then some q.2 else none

/-! ### The bencode encoder of the third program variant

`encodeBencode` dispatches on the value's type; `EncodeDictionary` walks the
Go map with `for k, v := range data`. Go specifies no iteration order for
maps (and randomises it), so the encoder is parametrised by the iteration
sequence of the map's entries. -/

/-- `strconv.Itoa` on a non-negative value. -/
def natToStr (n : Nat) : Str := (Nat.repr n).toList

/-- `strconv.Itoa`. -/
def intToStr : Int → Str
  | .ofNat n => natToStr n
  | .negSucc n => '-' :: natToStr (n + 1)

/-- Go `EncodeString`: `strconv.Itoa(len(data)) + ":" + data`. -/
def EncodeString (s : Str) : Str := natToStr s.length ++ ':' :: s

/-- Go `EncodeNumber`: `"i" + strconv.Itoa(data) + "e"`. -/
def EncodeNumber (n : Int) : Str := 'i' :: intToStr n ++ ['e']

mutual

/-- Go `encodeBencode`: dispatch on the value's variant. Every `Bencode`
variant is one of the four supported Go types, so the Go default error
branch is unreachable here. -/
def encodeBencode : Bencode → Str
  | .str s => EncodeString s
  | .int n => EncodeNumber n
  | .list l => 'l' :: encodeItems l ++ ['e']
  | .dict m => 'd' :: encodeEntries m ++ ['e']

/-- The body of Go `EncodeList`: concatenate the encodings in order. -/
def encodeItems : List Bencode → Str
  | [] => []
  | x :: xs => encodeBencode x ++ encodeItems xs

/-- The body of Go `EncodeDictionary`: for each entry of the map's
iteration sequence, concatenate the encoded key and encoded value. -/
def encodeEntries : List (Str × Bencode) → Str
  | [] => []
  | (k, v) :: rest => EncodeString k ++ encodeBencode v ++ encodeEntries rest

end

/-- Go `EncodeList`: `"l"` + items + `"e"`. -/
def EncodeList (l : List Bencode) : Str := 'l' :: encodeItems l ++ ['e']

/-- Go `EncodeDictionary`: `"d"` + the key/value pairs in the map's
iteration order + `"e"` — the source sorts nothing. -/
def EncodeDictionary (entries : List (Str × Bencode)) : Str :=
  'd' :: encodeEntries entries ++ ['e']

/-! ### Piece sizing (downloadPieceFromPeer / downloadTorrent) -/

/-- The block size `16 * 1024` of the source. -/
def blockSize : Nat := 16 * 1024

/-- Go `int(math.Ceil(float64(a) / float64(b)))`: the ceiling division, as
a Nat (exact for the magnitudes a torrent involves, far below 2^53). -/
def ceilDiv (a b : Nat) : Nat := (a + b - 1) / b

/-- `pieceCnt := int(math.Ceil(float64(torrent.Info.Length) / float64(pieceSize)))`. -/
def pieceCnt (totalLen pieceLen : Nat) : Nat := ceilDiv totalLen pieceLen

/-- The piece length computed by downloadPieceFromPeer (and downloadTorrent):
the nominal piece length, overwritten with `Length % PieceLength` for the
final index — with no fallback when that remainder is zero. -/
def pieceSizeAt (totalLen pieceLen index : Nat) : Nat :=
  if index = pieceCnt totalLen pieceLen - 1 then totalLen % pieceLen
  else pieceLen

/-! ### The peer connection, modelled on the incoming byte stream

Each read takes the requested number of bytes off the front of the peer's
incoming stream and fails (an I/O error) when the stream is exhausted;
writes go out on the socket and do not touch the incoming stream. -/

/-- A byte of the wire protocol. -/
abbrev Byte := Nat

/-- A socket read/write failure. -/
inductive NetErr where
  | ioError
  deriving DecidableEq

/-- Read exactly `n` bytes off the incoming stream (`conn.Read` into an
n-byte buffer, `io.ReadFull`): the bytes read and the rest of the stream. -/
def readN (n : Nat) (s : List Byte) : Except NetErr (List Byte × List Byte) :=
  if n ≤ s.length then .ok (s.take n, s.drop n) else .error .ioError

/-- The 19 bytes of `"BitTorrent protocol"`. -/
def btProtocol : List Byte :=
  ['B', 'i', 't', 'T', 'o', 'r', 'r', 'e', 'n', 't', ' ',
   'p', 'r', 'o', 't', 'o', 'c', 'o', 'l'].map Char.toNat

/-- The hard-coded local peer identifier of executeHandshake. -/
def localPeerId : List Byte :=
  [0, 0, 1, 1, 2, 2, 3, 3, 4, 4, 5, 5, 6, 6, 7, 7, 8, 8, 9, 9]

/-- The 68 handshake bytes executeHandshake writes: length byte 19, the
protocol name, 8 reserved zero bytes, the torrent's info hash, the local
peer id. -/
def handshakeMsg (infoHash : List Byte) : List Byte :=
  19 :: btProtocol ++ List.replicate 8 0 ++ infoHash ++ localPeerId

/-- Go `executeHandshake`: write the 68-byte handshake, read 68 bytes back
and return them together with the rest of the stream. The source inspects
none of the received bytes — no length-byte check, no info-hash
comparison; the only failure is the read failing. -/
def executeHandshake (infoHash : List Byte) (stream : List Byte) :
    Except NetErr (List Byte × List Byte) :=
  let _sent := handshakeMsg infoHash
  match readN 68 stream with
  | .error e => .error e
  | .ok (received, rest) => .ok (received, rest)

/-- `binary.BigEndian.Uint32` of a 4-byte buffer. -/
def be32 (bs : List Byte) : Nat :=
  ((bs.getD 0 0 * 256 + bs.getD 1 0) * 256 + bs.getD 2 0) * 256 + bs.getD 3 0

/-- The big-endian 4-byte encoding of `n < 2^32`. -/
def toBE32 (n : Nat) : List Byte :=
  [n / 16777216 % 256, n / 65536 % 256, n / 256 % 256, n % 256]

/-- The block-request loop of downloadPieceFromPeer: for each block, write
the 17-byte request, read a 4-byte length prefix, read that many payload
bytes (`io.ReadFull`), and append `payloadBuf[9:]` — without looking at the
message id or the index/offset fields. `payload.drop 9` models
`payloadBuf[9:]`; the Go slice would panic on a length prefix below 9, a
case the claims do not touch. -/
def blocksLoop : Nat → List Byte → List Byte → Except NetErr (List Byte)
  | 0, _, acc => .ok acc
  | n + 1, s, acc =>
    match readN 4 s with
    | .error e => .error e
    | .ok (lenPrefix, s1) =>
      match readN (be32 lenPrefix) s1 with
      | .error e => .error e
      | .ok (payload, s2) => blocksLoop n s2 (acc ++ payload.drop 9)

/-- The message exchange of downloadPieceFromPeer after the handshake
(source lines 465-532): read a 4-byte length prefix and that many payload
bytes where the bitfield is expected (id unchecked, payload discarded),
write interested, read exactly 5 bytes where the unchoke is expected (id
unchecked), then run the block loop over
`blockCnt = ceil(pieceSize / blockSize)` blocks. -/
def exchangePiece (pieceSize : Nat) (stream : List Byte) :
    Except NetErr (List Byte) :=
  match readN 4 stream with
  | .error e => .error e
  | .ok (lenPrefix, s1) =>
    match readN (be32 lenPrefix) s1 with
    | .error e => .error e
    | .ok (_bitfieldPayload, s2) =>
      match readN 5 s2 with
      | .error e => .error e
      | .ok (_unchoke, s3) => blocksLoop (ceilDiv pieceSize blockSize) s3 []

/-- A message as the peer sends it: 4-byte big-endian length prefix, then
the payload (id byte and body). -/
def lenPrefixed (payload : List Byte) : List Byte := toBE32 payload.length ++ payload

/-- A peer stream for one piece exchange: the bitfield-slot message, the 5
bytes read where the unchoke is expected, then each block response as a
length-prefixed message. -/
def mkPeerStream (bitfield unchoke : List Byte) (payloads : List (List Byte)) :
    List Byte :=
  lenPrefixed bitfield ++ unchoke ++ (payloads.map lenPrefixed).flatten

/-! ### downloadTorrentParallel: per-piece retry and result collection -/

/-- What a per-piece worker sends on the result channel: the verified bytes,
or the last error seen (`nil` when no attempt ran, i.e. the peer list was
empty). -/
inductive Report where
  | done (data : List Byte)
  | failed (err : Option Nat)
  deriving DecidableEq

/-- The retry loop of the worker in downloadTorrentParallel: `attempts`
lists the outcome of `downloadPieceFromPeer` against each candidate peer in
list order (`maxAttempts = len(peers)`, `peers[attempts%len(peers)]` walks
the list once); `lastErr` starts as Go `nil`. The first success wins; when
every attempt fails the last error is reported. Errors are opaque (`Nat`). -/
def tryPeers : List (Except Nat (List Byte)) → Option Nat → Report
  | [], lastErr => .failed lastErr
  | .ok d :: _, _ => .done d
  | .error e :: rest, _ => tryPeers rest (some e)

/-- The whole worker: run the retry loop with no last error yet. -/
def downloadPieceWorker (attempts : List (Except Nat (List Byte))) : Report :=
  tryPeers attempts none

/-- One step of the collection loop over the result channel: a success is
written into its indexed slot (`pieces[result.index] = result.data`), a
failure is appended to the error list. -/
def collectStep (st : List (Option (List Byte)) × List (Nat × Option Nat))
    (r : Nat × Report) : List (Option (List Byte)) × List (Nat × Option Nat) :=
  match r.2 with
  | .done d => (st.1.set r.1 (some d), st.2)
  | .failed e => (st.1, st.2 ++ [(r.1, e)])

/-- The step after the collection loop of downloadTorrentParallel: fail
with the error list when it is non-empty (`if len(errors) > 0`), otherwise
concatenate the slots in index order (an unset slot, Go `nil`, contributes
nothing to `fileData`). -/
def collectFinish (st : List (Option (List Byte)) × List (Nat × Option Nat)) :
    Except (List (Nat × Option Nat)) (List Byte) :=
  if st.2.isEmpty then .ok ((st.1.map (fun o => o.getD [])).flatten)
  else .error st.2

/-- The collection phase of downloadTorrentParallel: fold the worker
reports (in completion order) into the `pieceCnt` slots and the error
list, then finish. -/
def downloadParallel (cnt : Nat) (reports : List (Nat × Report)) :
    Except (List (Nat × Option Nat)) (List Byte) :=
  collectFinish (reports.foldl collectStep (List.replicate cnt none, []))

/-! ## Helper lemmas -/

theorem readDigitsGo_stop (ds : Str) (c : Char) (t : Str)
    (hds : ∀ d ∈ ds, isDigitChar d = true) (hc : isDigitChar c = false) :
    ∀ i x, readDigitsGo (ds ++ c :: t) i x = (digitsFold x ds, i + ds.length) := by
  induction ds with
  | nil => intro i x; simp [readDigitsGo, hc, digitsFold]
  | cons d ds ih =>
    intro i x
    have hd : isDigitChar d = true := hds d (by simp)
    rw [List.cons_append, readDigitsGo, if_pos hd,
      ih (fun d hd => hds d (by simp [hd])) (i + 1)]
    simp [digitsFold]
    omega

theorem readDigitsGo_decomp (s : Str) : ∀ i x, ∃ ds t, s = ds ++ t ∧
    (∀ d ∈ ds, isDigitChar d = true) ∧
    readDigitsGo s i x = (digitsFold x ds, i + ds.length) ∧
    (t = [] ∨ ∃ c t', t = c :: t' ∧ isDigitChar c = false) := by
  induction s with
  | nil =>
    exact fun i x => ⟨[], [], rfl, by simp, by simp [readDigitsGo, digitsFold], .inl rfl⟩
  | cons c rest ih =>
    intro i x
    by_cases hc : isDigitChar c
    · obtain ⟨ds, t, hst, hds, hrun, hend⟩ := ih (i + 1) (x * 10 + digitVal c)
      refine ⟨c :: ds, t, by simp [hst], ?_, ?_, hend⟩
      · intro d hd
        rcases List.mem_cons.mp hd with h | h
        · exact h ▸ hc
        · exact hds d h
      · rw [readDigitsGo, if_pos hc, hrun]
        simp [digitsFold]
        omega
    · exact ⟨[], c :: rest, rfl, by simp,
        by simp [readDigitsGo, hc, digitsFold], .inr ⟨c, rest, rfl, by simpa using hc⟩⟩

theorem getD_of_drop_cons (b : Str) (i : Nat) (c : Char) (t : Str)
    (h : b.drop i = c :: t) :
    b.getD i ' ' = c ∧ b.drop (i + 1) = t ∧ i < b.length := by
  have hlt : i < b.length := by
    by_contra hge
    push_neg at hge
    rw [List.drop_eq_nil_of_le hge] at h
    exact absurd h (by simp)
  have h0 : b[i]? = some c := by
    have := List.getElem?_drop b i 0
    rw [h] at this
    simpa using this.symm
  refine ⟨?_, ?_, hlt⟩
  · simp [List.getD_eq_getElem?_getD, h0]
  · have h2 : (b.drop i).drop 1 = b.drop (i + 1) := List.drop_drop 1 i b
    rw [h] at h2
    simpa using h2.symm

theorem drop_eq_getD_cons (b : Str) (i : Nat) (h : i < b.length) :
    b.drop i = b.getD i ' ' :: b.drop (i + 1) := by
  rw [List.drop_eq_getElem_cons h]
  congr 1
  simp [List.getD_eq_getElem?_getD, List.getElem?_eq_getElem h]

theorem getD_default_of_le (b : Str) (i : Nat) (h : b.length ≤ i) :
    b.getD i ' ' = ' ' := by
  simp [List.getD_eq_getElem?_getD, List.getElem?_eq_none h]

theorem digit_ne_dash (c : Char) (h : isDigitChar c = true) : c ≠ '-' := by
  intro he
  rw [he] at h
  exact absurd h (by decide)

theorem drop_of_run (b : Str) (start : Nat) (ds t : Str)
    (h : b.drop start = ds ++ t) : b.drop (start + ds.length) = t := by
  have h2 : (b.drop start).drop ds.length = b.drop (start + ds.length) :=
    List.drop_drop ds.length start b
  rw [h, List.drop_left] at h2
  exact h2.symm

theorem decodeIntTail_ok_iff (b : Str) (neg : Bool) (v j : Nat) :
    (∃ p, decodeIntTail b neg (v, j) = .ok p) ↔
      j ≠ b.length ∧ b.getD j ' ' = 'e' := by
  constructor
  · rintro ⟨p, hp⟩
    rw [decodeIntTail] at hp
    split at hp
    · exact absurd hp (by simp)
    · split at hp
      · exact absurd hp (by simp)
      · next h1 h2 => exact ⟨h1, not_not.mp h2⟩
  · rintro ⟨h1, h2⟩
    exact ⟨_, by rw [decodeIntTail, if_neg h1, if_neg (not_not.mpr h2)]⟩

theorem digitRun_ok_iff (b : Str) (start : Nat) (neg : Bool) :
    (∃ p, decodeIntTail b neg (readDigits b start 0) = .ok p) ↔
      ∃ ds rest, (∀ c ∈ ds, isDigitChar c = true) ∧
        b.drop start = ds ++ 'e' :: rest := by
  obtain ⟨ds, t, hsplit, hds, hrun, hend⟩ := readDigitsGo_decomp (b.drop start) start 0
  have hr : readDigits b start 0 = (digitsFold 0 ds, start + ds.length) := by
    rw [readDigits, hrun]
  rw [hr, decodeIntTail_ok_iff]
  have hdropj : b.drop (start + ds.length) = t := drop_of_run b start ds t hsplit
  constructor
  · rintro ⟨hne, he⟩
    rcases hend with ht | ⟨c, t', hct, hcnd⟩
    · exfalso
      rw [ht] at hdropj
      have hge : b.length ≤ start + ds.length := by
        have hl0 : (b.drop (start + ds.length)).length = b.length - (start + ds.length) :=
          List.length_drop _ _
        rw [hdropj] at hl0
        simp at hl0
        omega
      rw [getD_default_of_le b _ hge] at he
      exact absurd he (by decide)
    · rw [hct] at hdropj
      obtain ⟨hgd, _, _⟩ := getD_of_drop_cons b (start + ds.length) c t' hdropj
      rw [he] at hgd
      exact ⟨ds, t', hds, by rw [hsplit, hct, hgd]⟩
  · rintro ⟨ds', rest, hds', hsplit'⟩
    have hr' : readDigitsGo (b.drop start) start 0 =
        (digitsFold 0 ds', start + ds'.length) := by
      rw [hsplit', readDigitsGo_stop ds' 'e' rest hds' (by decide)]
    rw [hrun] at hr'
    have hj : start + ds.length = start + ds'.length := congrArg Prod.snd hr'
    have hdropj' : b.drop (start + ds'.length) = 'e' :: rest :=
      drop_of_run b start ds' ('e' :: rest) hsplit'
    obtain ⟨hgd, _, hlt⟩ := getD_of_drop_cons b (start + ds'.length) 'e' rest hdropj'
    rw [hj]
    exact ⟨by omega, hgd⟩

theorem decodeInt_ok_shape (b : Str) (st : Nat) :
    (∃ p, decodeInt b st = .ok p) ↔
      ∃ (neg : Bool) (ds rest : Str), (∀ c ∈ ds, isDigitChar c = true) ∧
        b.drop (st + 1) = (if neg then ['-'] else []) ++ ds ++ 'e' :: rest := by
  constructor
  · rintro ⟨p, hp⟩
    rw [decodeInt] at hp
    by_cases h1 : st + 1 = b.length
    · rw [if_pos h1] at hp
      exact absurd hp (by simp)
    rw [if_neg h1] at hp
    by_cases h2 : b.getD (st + 1) ' ' = '-'
    · rw [if_pos h2] at hp
      obtain ⟨ds, rest, hds, hsplit⟩ := (digitRun_ok_iff b (st + 2) true).mp ⟨p, hp⟩
      have hlt : st + 1 < b.length := by
        rcases Nat.lt_or_ge (st + 1) b.length with h | h
        · exact h
        · rw [getD_default_of_le b _ h] at h2
          exact absurd h2 (by decide)
      refine ⟨true, ds, rest, hds, ?_⟩
      rw [drop_eq_getD_cons b (st + 1) hlt, h2]
      simpa using hsplit
    · rw [if_neg h2] at hp
      obtain ⟨ds, rest, hds, hsplit⟩ := (digitRun_ok_iff b (st + 1) false).mp ⟨p, hp⟩
      exact ⟨false, ds, rest, hds, by simpa using hsplit⟩
  · rintro ⟨neg, ds, rest, hds, hsplit⟩
    cases neg with
    | true =>
      have hd1 : b.drop (st + 1) = '-' :: (ds ++ 'e' :: rest) := by simpa using hsplit
      obtain ⟨hgd, hdrop2, hlt1⟩ := getD_of_drop_cons b (st + 1) '-' _ hd1
      obtain ⟨p, hp⟩ := (digitRun_ok_iff b (st + 2) true).mpr
        ⟨ds, rest, hds, by simpa using hdrop2⟩
      exact ⟨p, by rw [decodeInt, if_neg (Nat.ne_of_lt hlt1), if_pos hgd]; exact hp⟩
    | false =>
      have hsplit2 : b.drop (st + 1) = ds ++ 'e' :: rest := by simpa using hsplit
      have hlt1 : st + 1 < b.length := by
        cases ds with
        | nil => exact (getD_of_drop_cons b (st + 1) 'e' rest (by simpa using hsplit2)).2.2
        | cons d ds' =>
          exact (getD_of_drop_cons b (st + 1) d (ds' ++ 'e' :: rest)
            (by simpa using hsplit2)).2.2
      have hnd : b.getD (st + 1) ' ' ≠ '-' := by
        cases ds with
        | nil =>
          rw [(getD_of_drop_cons b (st + 1) 'e' rest (by simpa using hsplit2)).1]
          decide
        | cons d ds' =>
          rw [(getD_of_drop_cons b (st + 1) d (ds' ++ 'e' :: rest)
            (by simpa using hsplit2)).1]
          exact digit_ne_dash d (hds d (by simp))
      obtain ⟨p, hp⟩ := (digitRun_ok_iff b (st + 1) false).mpr ⟨ds, rest, hds, hsplit2⟩
      exact ⟨p, by rw [decodeInt, if_neg (Nat.ne_of_lt hlt1), if_neg hnd]; exact hp⟩

theorem decodeTop_int_dispatch (b : Str) (st : Nat) (hst : st < b.length)
    (hi : b.getD st ' ' = 'i') :
    decodeTop b st = match decodeInt b st with
      | .error e => .error e
      | .ok (x, i) => .ok (.int x, i) := by
  have hfu : decodeFuel b = 2 * b.length + 1 + 1 := rfl
  rw [decodeTop, hfu, decodeD, if_neg (Nat.ne_of_lt hst), hi]
  rw [if_neg (by decide : ¬('i' = 'l')), if_pos rfl]

theorem decodeTop_dict_dispatch (b : Str) (st : Nat) (hst : st < b.length)
    (hd : b.getD st ' ' = 'd') :
    decodeTop b st = match decodeDictLoop (2 * b.length + 1) b (st + 1) [] with
      | .error e => .error e
      | .ok (m, i) => .ok (.dict m, i) := by
  have hfu : decodeFuel b = 2 * b.length + 1 + 1 := rfl
  rw [decodeTop, hfu, decodeD, if_neg (Nat.ne_of_lt hst), hd]
  rw [if_neg (by decide : ¬('d' = 'l')), if_neg (by decide : ¬('d' = 'i')),
    if_neg (by decide : ¬(isDigitChar 'd' = true)), if_pos rfl]

theorem decodeDictLoop_eq_pairs : ∀ (fuel : Nat) (b : Str) (i : Nat)
    (m : List (Str × Bencode)),
    decodeDictLoop fuel b i m =
      (decodePairsLoop fuel b i).map
        (fun p => (p.1.foldl (fun acc q => dictInsert acc q.1 q.2) m, p.2)) := by
  intro fuel
  induction fuel with
  | zero => intro b i m; rfl
  | succ fuel ih =>
    intro b i m
    rw [decodeDictLoop, decodePairsLoop]
    by_cases h1 : i ≥ b.length
    · rw [if_pos h1, if_pos h1]; rfl
    rw [if_neg h1, if_neg h1]
    by_cases h2 : b.getD i ' ' = 'e'
    · rw [if_pos h2, if_pos h2]; rfl
    rw [if_neg h2, if_neg h2]
    cases decodeString b i with
    | error e => rfl
    | ok kj =>
      obtain ⟨k, j⟩ := kj
      dsimp only
      cases decodeD fuel b j with
      | error e => rfl
      | ok vj =>
        obtain ⟨v, j'⟩ := vj
        dsimp only
        rw [ih]
        cases decodePairsLoop fuel b j' with
        | error e => rfl
        | ok psj => rfl

theorem dictLookup_dictInsert_self : ∀ (m : List (Str × Bencode)) (k : Str)
    (v : Bencode), dictLookup (dictInsert m k v) k = some v := by
  intro m k v
  induction m with
  | nil => simp [dictInsert, dictLookup]
  | cons p rest ih =>
    obtain ⟨k', v'⟩ := p
    by_cases h : k' = k
    · simp [dictInsert, h, dictLookup]
    · simp [dictInsert, h, dictLookup, ih]

theorem dictLookup_dictInsert_ne : ∀ (m : List (Str × Bencode)) (k' : Str)
    (v : Bencode) (k : Str),
    k' ≠ k → dictLookup (dictInsert m k' v) k = dictLookup m k := by
  intro m k' v k hne
  induction m with
  | nil => simp [dictInsert, dictLookup, hne]
  | cons p rest ih =>
    obtain ⟨k2, v2⟩ := p
    by_cases h : k2 = k'
    · simp [dictInsert, h, dictLookup, hne]
    · by_cases h2 : k2 = k
      · simp [dictInsert, h, dictLookup, h2, Ne.symm hne]
      · simp [dictInsert, h, dictLookup, h2, ih]

theorem dictLookup_foldl_insert : ∀ (ps : List (Str × Bencode))
    (m : List (Str × Bencode)) (k : Str),
    dictLookup (ps.foldl (fun acc q => dictInsert acc q.1 q.2) m) k =
      (lastVal ps k).or (dictLookup m k) := by
  intro ps
  induction ps with
  | nil => intro m k; rfl
  | cons q ps ih =>
    intro m k
    rw [List.foldl_cons, ih, lastVal]
    cases lastVal ps k with
    | some v => rfl
    | none =>
      by_cases h : q.1 = k
      · subst h
        rw [dictLookup_dictInsert_self]
        simp
      · rw [dictLookup_dictInsert_ne m q.1 q.2 k h]
        simp [h]

theorem lastVal_isSome_of_mem : ∀ (ps : List (Str × Bencode)) (k : Str),
    (∃ q ∈ ps, q.1 = k) → (lastVal ps k).isSome = true := by
  intro ps k
  induction ps with
  | nil => rintro ⟨q, hq, _⟩; exact absurd hq (by simp)
  | cons q ps ih =>
    rintro ⟨q', hq', hk⟩
    rw [lastVal]
    cases hl : lastVal ps k with
    | some v => rfl
    | none =>
      rcases List.mem_cons.mp hq' with h | h
      · subst h
        simp [hk]
      · have := ih ⟨q', h, hk⟩
        rw [hl] at this
        exact absurd this (by simp)

theorem tryPeers_last_ok : ∀ (attempts : List (Except Nat (List Byte)))
    (last : Option Nat) (d : List Byte),
    (∀ a ∈ attempts.dropLast, ∃ e, a = .error e) →
    attempts.getLast? = some (.ok d) → tryPeers attempts last = .done d := by
  intro attempts
  induction attempts with
  | nil => intro last d _ h; simp at h
  | cons a rest ih =>
    intro last d hdrop hlast
    cases rest with
    | nil =>
      simp at hlast
      rw [hlast]
      rfl
    | cons b rest' =>
      obtain ⟨e, he⟩ := hdrop a (by simp)
      subst he
      rw [List.getLast?_cons_cons] at hlast
      exact ih (some e) d (fun x hx => hdrop x (by simp [hx])) hlast

theorem tryPeers_all_fail : ∀ (attempts : List (Except Nat (List Byte)))
    (last : Option Nat) (e : Nat),
    (∀ a ∈ attempts, ∃ e', a = .error e') →
    attempts.getLast? = some (.error e) →
    tryPeers attempts last = .failed (some e) := by
  intro attempts
  induction attempts with
  | nil => intro last e _ h; simp at h
  | cons a rest ih =>
    intro last e hall hlast
    obtain ⟨e', he'⟩ := hall a (by simp)
    subst he'
    cases rest with
    | nil =>
      simp at hlast
      rw [hlast]
      rfl
    | cons b rest' =>
      rw [List.getLast?_cons_cons] at hlast
      exact ih (some e') e (fun x hx => hall x (by simp [hx])) hlast

theorem collect_errs : ∀ (reports : List (Nat × Report))
    (slots : List (Option (List Byte))) (errs : List (Nat × Option Nat)),
    (reports.foldl collectStep (slots, errs)).2 =
      errs ++ reports.filterMap (fun r =>
        match r.2 with
        | Report.failed e => some (r.1, e)
        | Report.done _ => none) := by
  intro reports
  induction reports with
  | nil => intro slots errs; simp
  | cons r rest ih =>
    intro slots errs
    obtain ⟨i, rep⟩ := r
    cases rep with
    | done d =>
      rw [List.foldl_cons]
      show (rest.foldl collectStep (slots.set i (some d), errs)).2 = _
      rw [ih]
      simp [List.filterMap_cons]
    | failed e =>
      rw [List.foldl_cons]
      show (rest.foldl collectStep (slots, errs ++ [(i, e)])).2 = _
      rw [ih]
      simp [List.filterMap_cons]

theorem collect_all_done (f : Nat → List Byte) :
    ∀ (reports : List (Nat × Report)) (slots : List (Option (List Byte)))
      (errs : List (Nat × Option Nat)),
    (∀ r ∈ reports, r.2 = Report.done (f r.1)) →
    reports.foldl collectStep (slots, errs) =
      ((reports.map Prod.fst).foldl (fun a i => a.set i (some (f i))) slots, errs) := by
  intro reports
  induction reports with
  | nil => intro slots errs _; rfl
  | cons r rest ih =>
    intro slots errs hdone
    obtain ⟨i, rep⟩ := r
    have hr : rep = Report.done (f i) := hdone (i, rep) (by simp)
    subst hr
    rw [List.foldl_cons, List.map_cons, List.foldl_cons]
    exact ih (slots.set i (some (f i))) errs (fun r hr => hdone r (by simp [hr]))

theorem foldl_set_getElem? (f : Nat → List Byte) :
    ∀ (idxs : List Nat) (slots : List (Option (List Byte))) (j : Nat),
    (idxs.foldl (fun a i => a.set i (some (f i))) slots)[j]? =
      if j ∈ idxs ∧ j < slots.length then some (some (f j)) else slots[j]? := by
  intro idxs
  induction idxs with
  | nil => intro slots j; simp
  | cons i idxs ih =>
    intro slots j
    rw [List.foldl_cons, ih]
    rw [List.length_set]
    by_cases h1 : j ∈ idxs ∧ j < slots.length
    · rw [if_pos h1, if_pos ⟨by simp [h1.1], h1.2⟩]
    · rw [if_neg h1, List.getElem?_set]
      by_cases h2 : i = j
      · subst h2
        by_cases h3 : i < slots.length
        · rw [if_pos rfl, if_pos h3, if_pos ⟨by simp, h3⟩]
        · rw [if_pos rfl, if_neg h3, if_neg (by intro hc; exact h3 hc.2),
            List.getElem?_eq_none (by omega)]
      · rw [if_neg h2]
        rw [if_neg ?hcond]
        case hcond =>
          rintro ⟨hmem, hlt⟩
          rcases List.mem_cons.mp hmem with h | h
          · exact h2 h.symm
          · exact h1 ⟨h, hlt⟩

theorem readN_exact (a b : List Byte) : readN a.length (a ++ b) = .ok (a, b) := by
  rw [readN, if_pos (by simp), List.take_left, List.drop_left]

theorem readN_exact_of_len (n : Nat) (a b : List Byte) (h : a.length = n) :
    readN n (a ++ b) = .ok (a, b) := by
  subst h
  exact readN_exact a b

theorem be32_toBE32 (n : Nat) (h : n < 4294967296) : be32 (toBE32 n) = n := by
  simp [be32, toBE32]
  omega

theorem blocksLoop_spec : ∀ (payloads : List (List Byte)) (acc rest : List Byte),
    (∀ p ∈ payloads, p.length < 4294967296) →
    blocksLoop payloads.length ((payloads.map lenPrefixed).flatten ++ rest) acc =
      .ok (acc ++ (payloads.map (fun p => p.drop 9)).flatten) := by
  intro payloads
  induction payloads with
  | nil => intro acc rest _; simp [blocksLoop]
  | cons p ps ih =>
    intro acc rest hlen
    rw [List.map_cons, List.flatten_cons]
    show blocksLoop (ps.length + 1) _ _ = _
    rw [blocksLoop]
    have hassoc : lenPrefixed p ++ ((ps.map lenPrefixed).flatten ++ rest) =
        toBE32 p.length ++ (p ++ ((ps.map lenPrefixed).flatten ++ rest)) := by
      simp [lenPrefixed]
    rw [List.append_assoc, hassoc,
      readN_exact_of_len 4 (toBE32 p.length)
        (p ++ ((ps.map lenPrefixed).flatten ++ rest)) rfl]
    dsimp only
    rw [be32_toBE32 p.length (hlen p (by simp)), readN_exact]
    dsimp only
    rw [ih (acc ++ p.drop 9) rest (fun q hq => hlen q (by simp [hq]))]
    rw [List.map_cons, List.flatten_cons, List.append_assoc]

/-! ## Claim theorems -/

/-- C1: the claim says decode always returns as next_position the offset
just past the decoded value's bytes, and in particular that decoding a Dict
consumes its terminating 'e'. The source's decodeDict returns without the
`i++` its decodeList performs after the loop, so the code violates this:
`decode("de", 0)` returns next_position 1 — the offset OF the terminating
'e', not 2, the offset just past it — and for a Dict nested in a List,
`decode("ldee", 0)`, the list loop consumes the dict's 'e' as the list
terminator and returns next_position 3 instead of 4. -/
theorem decodeDict_position_bug :
    decodeTop ['d', 'e'] 0 = .ok (.dict [], 1) ∧
    decodeTop ['l', 'd', 'e', 'e'] 0 = .ok (.list [.dict []], 3) ∧
    (1 : Nat) ≠ 2 ∧ (3 : Nat) ≠ 4 :=
  ⟨rfl, rfl, by decide, by decide⟩

/-- C2: the claim says the final piece's byte length is the full nominal
piece length when the total length is an exact multiple of the piece
length. The source sets `pieceSize = Length % PieceLength` for the final
index with no fallback for a zero remainder: with Length 32768 and
PieceLength 16384 the final piece (index 1 of 2) gets length 0 — not
16384 — and `ceil(0 / blockSize) = 0` blocks are then requested. The
non-final piece and the non-zero-remainder final piece (Length 49153)
do match the claim. -/
theorem pieceSize_zero_on_exact_multiple :
    pieceCnt 32768 16384 = 2 ∧
    pieceSizeAt 32768 16384 1 = 0 ∧
    (0 : Nat) ≠ 16384 ∧
    pieceSizeAt 32768 16384 0 = 16384 ∧
    pieceCnt 49153 16384 = 4 ∧
    pieceSizeAt 49153 16384 3 = 1 ∧
    pieceSizeAt 49153 16384 2 = 16384 ∧
    ceilDiv 0 blockSize = 0 := by decide

/-- C3 (counterexample): a received handshake of 68 zero bytes has
protocol-name length byte 0 (not 19) and a fingerprint field that differs
from the torrent's, yet executeHandshake accepts it — the claim that such
a handshake fails with a mismatch error is false on the code. -/
theorem executeHandshake_no_validation_cex :
    (List.replicate 68 (0 : Byte)).getD 0 99 ≠ 19 ∧
    ((List.replicate 68 (0 : Byte)).drop 28).take 20 ≠ List.replicate 20 7 ∧
    executeHandshake (List.replicate 20 7) (List.replicate 68 0) =
      .ok (List.replicate 68 0, []) :=
  ⟨by decide, by decide, rfl⟩

/-- C3 (amended): after sending the 68-byte handshake, executeHandshake
reads 68 bytes back and succeeds with exactly those bytes for EVERY stream
holding at least 68 bytes, regardless of the protocol-name length byte or
the fingerprint field; it fails only when the read itself fails. -/
theorem executeHandshake_accepts_any (infoHash stream : List Byte)
    (h : 68 ≤ stream.length) :
    executeHandshake infoHash stream = .ok (stream.take 68, stream.drop 68) := by
  simp [executeHandshake, readN, h]

/-- C3 (witness): the amended theorem at a concrete 68-byte stream. -/
theorem executeHandshake_accepts_any_witness :
    executeHandshake (List.replicate 20 7) (List.replicate 68 1) =
      .ok ((List.replicate 68 (1 : Byte)).take 68,
        (List.replicate 68 (1 : Byte)).drop 68) :=
  executeHandshake_accepts_any (List.replicate 20 7) (List.replicate 68 1) (by decide)

/-- C4 (counterexample): a stream whose first message carries id 9 (not the
bitfield id 5), whose unchoke slot carries id 3 (not 1) and whose block
response carries id 2 (not the piece id 7) with index/offset fields 7 and 9
(not the requested 0/0) is still accepted by the message exchange of
downloadPieceFromPeer, which returns the bytes after the 9-byte header —
the claim that any such id is rejected with a protocol error is false on
the code. -/
theorem exchangePiece_no_validation_cex :
    (9 : Byte) ≠ 5 ∧ (3 : Byte) ≠ 1 ∧ (2 : Byte) ≠ 7 ∧
    exchangePiece 10
      ([0, 0, 0, 1, 9] ++ [0, 0, 0, 1, 3] ++ [0, 0, 0, 19] ++
        [2, 0, 0, 0, 7, 0, 0, 0, 9, 11, 22, 33, 44, 55, 66, 77, 88, 99, 100]) =
      .ok [11, 22, 33, 44, 55, 66, 77, 88, 99, 100] :=
  ⟨by decide, by decide, by decide, rfl⟩

/-- C4 (amended): the message exchange of downloadPieceFromPeer validates
no message id at all: for every bitfield-slot payload, every 5 bytes in the
unchoke slot and every block-response payload of at least 9 bytes — with
arbitrary id, index and offset fields — the exchange succeeds and returns
the concatenation of the response payloads after their 9-byte headers; it
fails only when the stream runs out (an I/O error), never with a protocol
error. -/
theorem exchangePiece_no_id_validation (pieceSize : Nat)
    (bitfield unchoke : List Byte) (payloads : List (List Byte))
    (hu : unchoke.length = 5)
    (hb : bitfield.length < 4294967296)
    (hn : payloads.length = ceilDiv pieceSize blockSize)
    (hp : ∀ p ∈ payloads, p.length < 4294967296) :
    exchangePiece pieceSize (mkPeerStream bitfield unchoke payloads) =
      .ok ((payloads.map (fun p => p.drop 9)).flatten) := by
  rw [exchangePiece, mkPeerStream]
  have hassoc : lenPrefixed bitfield ++ unchoke ++ (payloads.map lenPrefixed).flatten =
      toBE32 bitfield.length ++
        (bitfield ++ (unchoke ++ (payloads.map lenPrefixed).flatten)) := by
    simp [lenPrefixed]
  rw [hassoc, readN_exact_of_len 4 (toBE32 bitfield.length)
    (bitfield ++ (unchoke ++ (payloads.map lenPrefixed).flatten)) rfl]
  dsimp only
  rw [be32_toBE32 bitfield.length hb, readN_exact]
  dsimp only
  rw [readN_exact_of_len 5 _ _ hu]
  dsimp only
  rw [← hn, ← List.append_nil ((payloads.map lenPrefixed).flatten),
    blocksLoop_spec payloads [] [] hp]
  rfl

/-- C4 (witness): the amended theorem at a one-block stream whose id,
index and offset fields are all wrong. -/
theorem exchangePiece_no_id_validation_witness :
    exchangePiece 10 (mkPeerStream [9] [0, 0, 0, 1, 3]
      [[2, 0, 0, 0, 7, 0, 0, 0, 9, 11, 22, 33, 44, 55, 66, 77, 88, 99, 100]]) =
      .ok (([[2, 0, 0, 0, 7, 0, 0, 0, 9, 11, 22, 33, 44, 55, 66, 77, 88, 99, 100]].map
        (fun p => p.drop 9)).flatten) :=
  exchangePiece_no_id_validation 10 [9] [0, 0, 0, 1, 3]
    [[2, 0, 0, 0, 7, 0, 0, 0, 9, 11, 22, 33, 44, 55, 66, 77, 88, 99, 100]]
    (by decide) (by decide) (by decide) (by decide)

/-- C5 (counterexample): the claim says inputs such as "ie", "i-e", "i-0e"
and "i007e" fail. The source's decodeInt accepts an empty digit run, the
value -0 and superfluous leading zeros, so all four decode successfully. -/
theorem decodeInt_lenient_cex :
    decodeTop ['i', 'e'] 0 = .ok (.int 0, 2) ∧
    decodeTop ['i', '-', 'e'] 0 = .ok (.int 0, 3) ∧
    decodeTop ['i', '-', '0', 'e'] 0 = .ok (.int 0, 4) ∧
    decodeTop ['i', '0', '0', '7', 'e'] 0 = .ok (.int 7, 5) :=
  ⟨rfl, rfl, rfl, rfl⟩

/-- C5 (amended): for every input and position whose byte is 'i', decode
succeeds exactly when the bytes that follow are an optional '-', a POSSIBLY
EMPTY ASCII digit run, then 'e' — leading zeros and "-0" included; it
fails for every other shape. -/
theorem decodeInt_shape (b : Str) (st : Nat) (hst : st < b.length)
    (hi : b.getD st ' ' = 'i') :
    (∃ r, decodeTop b st = .ok r) ↔
      ∃ (neg : Bool) (ds rest : Str), (∀ c ∈ ds, isDigitChar c = true) ∧
        b.drop (st + 1) = (if neg then ['-'] else []) ++ ds ++ 'e' :: rest := by
  rw [← decodeInt_ok_shape]
  rw [decodeTop_int_dispatch b st hst hi]
  constructor
  · rintro ⟨r, hr⟩
    cases hp : decodeInt b st with
    | error e => rw [hp] at hr; exact absurd hr (by simp)
    | ok p => exact ⟨p, rfl⟩
  · rintro ⟨⟨x, i⟩, hp⟩
    exact ⟨(.int x, i), by rw [hp]⟩

/-- C5 (witness): the shape theorem applied at "i-42e". -/
theorem decodeInt_shape_witness :
    ∃ r, decodeTop ['i', '-', '4', '2', 'e'] 0 = .ok r :=
  (decodeInt_shape ['i', '-', '4', '2', 'e'] 0 (by decide) (by decide)).mpr
    ⟨true, ['4', '2'], [], by decide, by decide⟩

/-- C6: the claim says EncodeDictionary emits keys in ascending order of
their raw bytes independently of the Go map's iteration order, so equal
maps encode identically. The source iterates the map with `range` and
sorts nothing, so the emitted bytes follow the (unspecified, randomised)
iteration order: the same two bindings a↦y, b↦x yield "d1:b1:x1:a1:ye"
when iterated b-first — not the key-sorted "d1:a1:y1:b1:xe" — and the two
iteration orders of the same map yield different byte sequences. -/
theorem encodeDictionary_not_sorted :
    EncodeDictionary [(['b'], .str ['x']), (['a'], .str ['y'])] =
      ['d', '1', ':', 'b', '1', ':', 'x', '1', ':', 'a', '1', ':', 'y', 'e'] ∧
    EncodeDictionary [(['a'], .str ['y']), (['b'], .str ['x'])] =
      ['d', '1', ':', 'a', '1', ':', 'y', '1', ':', 'b', '1', ':', 'x', 'e'] ∧
    EncodeDictionary [(['b'], .str ['x']), (['a'], .str ['y'])] ≠
      EncodeDictionary [(['a'], .str ['y']), (['b'], .str ['x'])] ∧
    dictLookup [(['b'], .str ['x']), (['a'], .str ['y'])] ['a'] = some (.str ['y']) ∧
    dictLookup [(['a'], .str ['y']), (['b'], .str ['x'])] ['a'] = some (.str ['y']) ∧
    dictLookup [(['b'], .str ['x']), (['a'], .str ['y'])] ['b'] = some (.str ['x']) ∧
    dictLookup [(['a'], .str ['y']), (['b'], .str ['x'])] ['b'] = some (.str ['x']) := by
  refine ⟨rfl, rfl, ?_, rfl, rfl, rfl, rfl⟩
  decide

/-- C7: decode returns an error (the embedding is total, so no panic or
out-of-bounds read is possible) for each listed malformed input decoded
from offset 0 — "5:hi" (declared length past the end), "l4:spam"
(unterminated list), "d3:cow3:moo" (unterminated dict), "i42" (integer
missing its 'e') — and for every input whose leading byte is none of
'i', 'l', 'd' or a digit. -/
theorem decode_rejects_malformed :
    (∃ e, decodeTop ['5', ':', 'h', 'i'] 0 = .error e) ∧
    (∃ e, decodeTop ['l', '4', ':', 's', 'p', 'a', 'm'] 0 = .error e) ∧
    (∃ e, decodeTop ['d', '3', ':', 'c', 'o', 'w', '3', ':', 'm', 'o', 'o'] 0 =
      .error e) ∧
    (∃ e, decodeTop ['i', '4', '2'] 0 = .error e) ∧
    ∀ (b : Str), b ≠ [] → b.getD 0 ' ' ≠ 'i' → b.getD 0 ' ' ≠ 'l' →
      b.getD 0 ' ' ≠ 'd' → isDigitChar (b.getD 0 ' ') = false →
      ∃ e, decodeTop b 0 = .error e := by
  refine ⟨⟨_, rfl⟩, ⟨_, rfl⟩, ⟨_, rfl⟩, ⟨_, rfl⟩, ?_⟩
  intro b hb hi hl hd hdig
  refine ⟨.unexpected (b.getD 0 ' '), ?_⟩
  have hlen : 0 < b.length := List.length_pos.mpr hb
  have hfu : decodeFuel b = 2 * b.length + 1 + 1 := rfl
  rw [decodeTop, hfu, decodeD]
  simp only [List.getD_eq_getElem?_getD] at hi hl hd hdig
  simp [hlen.ne, hi, hl, hd, hdig]

/-- C8: the per-piece worker of downloadTorrentParallel tries the peers in
list order, at most one attempt per peer: when the attempts against every
peer but the last fail and the last succeeds, the worker reports that
piece's bytes; when every attempt fails it reports the piece as failed
carrying the last error seen; and the collection phase fails the overall
download with an error list containing every failed piece. -/
theorem downloadParallel_retry (attempts : List (Except Nat (List Byte))) :
    (∀ d, (∀ a ∈ attempts.dropLast, ∃ e, a = .error e) →
        attempts.getLast? = some (.ok d) → downloadPieceWorker attempts = .done d) ∧
    (∀ e, (∀ a ∈ attempts, ∃ e', a = .error e') →
        attempts.getLast? = some (.error e) →
        downloadPieceWorker attempts = .failed (some e)) ∧
    (∀ (cnt : Nat) (reports : List (Nat × Report)),
        (∃ i err, (i, Report.failed err) ∈ reports) →
        ∃ errs, downloadParallel cnt reports = .error errs ∧
          ∀ i err, (i, Report.failed err) ∈ reports → (i, err) ∈ errs) := by
  refine ⟨fun d hdrop hlast => tryPeers_last_ok attempts none d hdrop hlast,
    fun e hall hlast => tryPeers_all_fail attempts none e hall hlast, ?_⟩
  rintro cnt reports ⟨i0, err0, hmem0⟩
  refine ⟨reports.filterMap (fun r =>
    match r.2 with
    | Report.failed e => some (r.1, e)
    | Report.done _ => none), ?_, ?_⟩
  · have hE : (reports.foldl collectStep (List.replicate cnt none, [])).2 =
        reports.filterMap (fun r =>
          match r.2 with
          | Report.failed e => some (r.1, e)
          | Report.done _ => none) := by
      rw [collect_errs]
      simp
    have hmemE : (i0, err0) ∈ reports.filterMap (fun r =>
        match r.2 with
        | Report.failed e => some (r.1, e)
        | Report.done _ => none) :=
      List.mem_filterMap.mpr ⟨(i0, .failed err0), hmem0, rfl⟩
    have hne2 := List.ne_nil_of_mem hmemE
    rw [downloadParallel, collectFinish, hE,
      if_neg (by simpa [List.isEmpty_iff] using hne2)]
  · intro i err hmem
    exact List.mem_filterMap.mpr ⟨(i, .failed err), hmem, rfl⟩

/-- C8 (witness): the retry theorem at the two-peer attempt list where the
first peer fails and the second succeeds. -/
theorem downloadParallel_retry_witness :
    (∀ d, (∀ a ∈ ([.error 7, .ok [42]] :
          List (Except Nat (List Byte))).dropLast, ∃ e, a = .error e) →
        ([.error 7, .ok [42]] : List (Except Nat (List Byte))).getLast? =
          some (.ok d) →
        downloadPieceWorker [.error 7, .ok [42]] = .done d) ∧
    (∀ e, (∀ a ∈ ([.error 7, .ok [42]] : List (Except Nat (List Byte))),
          ∃ e', a = .error e') →
        ([.error 7, .ok [42]] : List (Except Nat (List Byte))).getLast? =
          some (.error e) →
        downloadPieceWorker [.error 7, .ok [42]] = .failed (some e)) ∧
    (∀ (cnt : Nat) (reports : List (Nat × Report)),
        (∃ i err, (i, Report.failed err) ∈ reports) →
        ∃ errs, downloadParallel cnt reports = .error errs ∧
          ∀ i err, (i, Report.failed err) ∈ reports → (i, err) ∈ errs) :=
  downloadParallel_retry [.error 7, .ok [42]]

/-- C9: for every set of successfully downloaded pieces and every
completion order of the workers — any report list whose indices are a
permutation of the piece index range, each carrying its piece's bytes —
the final output is the concatenation of the pieces in ascending index
order; the right-hand side does not mention the report order, so
reordering completions leaves the output unchanged. -/
theorem downloadParallel_order_independent (cnt : Nat) (f : Nat → List Byte)
    (reports : List (Nat × Report))
    (hperm : (reports.map Prod.fst).Perm (List.range cnt))
    (hdone : ∀ r ∈ reports, r.2 = Report.done (f r.1)) :
    downloadParallel cnt reports = .ok (((List.range cnt).map f).flatten) := by
  rw [downloadParallel, collect_all_done f reports _ _ hdone, collectFinish]
  rw [if_pos (by simp)]
  have hslots : (reports.map Prod.fst).foldl (fun a i => a.set i (some (f i)))
      (List.replicate cnt none) = (List.range cnt).map (fun i => some (f i)) := by
    apply List.ext_getElem?
    intro j
    rw [foldl_set_getElem? f, List.length_replicate]
    by_cases hj : j < cnt
    · have hmem : j ∈ reports.map Prod.fst :=
        hperm.mem_iff.mpr (List.mem_range.mpr hj)
      rw [if_pos ⟨hmem, hj⟩, List.getElem?_map, List.getElem?_range hj]
      rfl
    · rw [if_neg (by intro hc; exact hj hc.2),
        List.getElem?_eq_none (by simpa using hj),
        List.getElem?_eq_none (by simpa using hj)]
  rw [hslots, List.map_map]
  have hcomp : ((fun o => o.getD []) ∘ (fun i => some (f i))) = f := by
    funext i
    rfl
  rw [hcomp]

/-- C9 (witness): the ordering theorem at two pieces completing in reverse
index order. -/
theorem downloadParallel_order_independent_witness :
    downloadParallel 2 [(1, Report.done [1]), (0, Report.done [0])] =
      .ok (((List.range 2).map (fun i => [i])).flatten) :=
  downloadParallel_order_independent 2 (fun i => [i])
    [(1, Report.done [1]), (0, Report.done [0])] (by decide) (by decide)

/-- C10: whenever the dictionary-body parse from the position after the
'd' yields a pair sequence (same loop as decodeDict, collecting the pairs
instead of folding them into the map) in which some key occurs more than
once, decode succeeds — the duplicate is not rejected — with the map
obtained by inserting the pairs in parse order, the binding of the
duplicated key is the value of its LAST occurrence, and next_position is
the pair parse's position, which depends only on the byte structure and
not on the keys being equal. -/
theorem decode_dict_duplicate_last_wins (b : Str) (st : Nat)
    (ps : List (Str × Bencode)) (j : Nat) (k : Str)
    (hst : st < b.length) (hd : b.getD st ' ' = 'd')
    (hp : decodePairsLoop (2 * b.length + 1) b (st + 1) = .ok (ps, j))
    (hdup : 2 ≤ (ps.filter (fun q => q.1 = k)).length) :
    decodeTop b st =
      .ok (.dict (ps.foldl (fun acc q => dictInsert acc q.1 q.2) []), j) ∧
    dictLookup (ps.foldl (fun acc q => dictInsert acc q.1 q.2) []) k =
      lastVal ps k ∧
    (lastVal ps k).isSome = true := by
  have hmem : ∃ q ∈ ps, q.1 = k := by
    have hne : ps.filter (fun q => q.1 = k) ≠ [] := by
      intro h
      rw [h] at hdup
      simp at hdup
    obtain ⟨q, hq⟩ := List.exists_mem_of_ne_nil _ hne
    have := List.mem_filter.mp hq
    exact ⟨q, this.1, by simpa using this.2⟩
  have hsome := lastVal_isSome_of_mem ps k hmem
  refine ⟨?_, ?_, hsome⟩
  · rw [decodeTop_dict_dispatch b st hst hd, decodeDictLoop_eq_pairs, hp]
    rfl
  · rw [dictLookup_foldl_insert]
    cases hl : lastVal ps k with
    | some v => rfl
    | none => rw [hl] at hsome; exact absurd hsome (by simp)

/-- C10 (witness): the duplicate-key theorem at "d2:ab1:x2:ab1:ye", whose
key "ab" occurs twice; the surviving binding is its last value "y". -/
theorem decode_dict_duplicate_witness :
    decodeTop ['d', '2', ':', 'a', 'b', '1', ':', 'x', '2', ':', 'a', 'b',
        '1', ':', 'y', 'e'] 0 =
      .ok (.dict ([(['a', 'b'], Bencode.str ['x']),
        (['a', 'b'], Bencode.str ['y'])].foldl
          (fun acc q => dictInsert acc q.1 q.2) []), 15) ∧
    dictLookup ([(['a', 'b'], Bencode.str ['x']),
        (['a', 'b'], Bencode.str ['y'])].foldl
          (fun acc q => dictInsert acc q.1 q.2) []) ['a', 'b'] =
      lastVal [(['a', 'b'], Bencode.str ['x']),
        (['a', 'b'], Bencode.str ['y'])] ['a', 'b'] ∧
    (lastVal [(['a', 'b'], Bencode.str ['x']),
        (['a', 'b'], Bencode.str ['y'])] ['a', 'b']).isSome = true :=
  decode_dict_duplicate_last_wins
    ['d', '2', ':', 'a', 'b', '1', ':', 'x', '2', ':', 'a', 'b', '1', ':', 'y', 'e'] 0
    [(['a', 'b'], Bencode.str ['x']), (['a', 'b'], Bencode.str ['y'])] 15 ['a', 'b']
    (by decide) (by decide) (by rfl) (by decide)

end BittorrentGo
